import Mathlib

/-!
Shallow embedding of the sophgo/linux-riscv synchronization primitives:

* `include/asm-generic/ticket_spinlock.h` — the generic ticket spinlock.
  The lock state is one 32-bit word, modelled as a natural number `w`
  with `w < 2^32`; the high 16 bits are the `next` (ticket dispenser)
  field and the low 16 bits are the `owner` ("now serving") field.
  Machine arithmetic is modelled with explicit `% 2^16` / `% 2^32`.

* `arch/riscv/include/asm/lrsc.h` — the LR/SC contention-backoff table
  (`pre_lrsc` / `post_lrsc` over the 128-bucket `lrsc_count` array of
  unsigned 16-bit counters, indexed through Thomas Wang's 64-bit hash).
-/

set_option maxRecDepth 8000

namespace TicketLock

/-- The `next` (high 16-bit) field of a 32-bit lock word. -/
def lockNext (w : Nat) : Nat := w / 65536 % 65536

/-- The `owner` (low 16-bit) field of a 32-bit lock word. -/
def lockOwner (w : Nat) : Nat := w % 65536

/-- `ticket_spin_lock`'s atomic part: `atomic_fetch_add_acquire(1<<16, &lock->val)`
followed by `u16 ticket = val >> 16` and the test `ticket == (u16)val`.
Returns the new lock word, the caller's ticket, and whether the fast path
(`return` without spinning) is taken. -/
def ticket_spin_lock (w : Nat) : Nat × Nat × Bool :=
  let old := w
  let ticket := old / 65536 % 65536
  ((old + 65536) % 4294967296, ticket, decide (ticket = old % 65536))

/-- `ticket_spin_trylock`: reads `old`, fails if `(old >> 16) != (old & 0xffff)`,
otherwise the compare-and-swap installs `old + (1<<16)` (sequentially the
CAS succeeds since the word still equals `old`). Returns (success, new word). -/
def ticket_spin_trylock (w : Nat) : Bool × Nat :=
  let old := w
  if old / 65536 ≠ old % 65536 then (false, w)
  else (true, (old + 65536) % 4294967296)

/-- `ticket_spin_unlock`: on a little-endian machine the half-word pointer
addresses the low 16 bits, and `smp_store_release(ptr, (u16)val + 1)` stores
the incremented owner field truncated to 16 bits; the high half is untouched. -/
def ticket_spin_unlock (w : Nat) : Nat :=
  w / 65536 * 65536 + (w % 65536 + 1) % 65536

/-- `ticket_spin_value_unlocked`: `(val >> 16) == (val & 0xffff)`. -/
def ticket_spin_value_unlocked (w : Nat) : Bool :=
  decide (w / 65536 = w % 65536)

/-- `ticket_spin_is_locked`: `!ticket_spin_value_unlocked(val)` on a snapshot. -/
def ticket_spin_is_locked (w : Nat) : Bool :=
  ! ticket_spin_value_unlocked w

/-- `ticket_spin_is_contended`: `(s16)((val >> 16) - (val & 0xffff)) > 1`.
The unsigned difference is truncated to 16 bits and read as two's-complement:
values at least `2^15` are negative. -/
def ticket_spin_is_contended (w : Nat) : Bool :=
  let next := w / 65536 % 65536
  let owner := w % 65536
  let d := (next + 65536 - owner) % 65536
  decide ((1 : Int) < if d < 32768 then (d : Int) else (d : Int) - 65536)

end TicketLock

namespace TicketLock

/-- C2: `lock()`'s fetch-add of `1<<16` advances the `next` field by exactly one
modulo 2^16 and leaves the `owner` field unchanged; the caller's ticket is the
old high half; the call returns without spinning exactly when that ticket
equals the old low half. -/
theorem ticket_spin_lock_fetch_add (w : Nat) (hw : w < 4294967296) :
    lockOwner (ticket_spin_lock w).1 = lockOwner w ∧
    lockNext (ticket_spin_lock w).1 = (lockNext w + 1) % 65536 ∧
    (ticket_spin_lock w).2.1 = w / 65536 ∧
    ((ticket_spin_lock w).2.2 = true ↔ w / 65536 = w % 65536) := by
  simp only [ticket_spin_lock, lockOwner, lockNext, decide_eq_true_eq]
  refine ⟨?_, ?_, ?_, ?_⟩ <;> omega

theorem ticket_spin_lock_fetch_add_witness :
    (65536 : Nat) < 4294967296 ∧
    (lockOwner (ticket_spin_lock 65536).1 = lockOwner 65536 ∧
     lockNext (ticket_spin_lock 65536).1 = (lockNext 65536 + 1) % 65536 ∧
     (ticket_spin_lock 65536).2.1 = 65536 / 65536 ∧
     ((ticket_spin_lock 65536).2.2 = true ↔ 65536 / 65536 = 65536 % 65536)) :=
  ⟨by decide, ticket_spin_lock_fetch_add 65536 (by decide)⟩

/-- C4: `unlock()` advances the `owner` (low) field by exactly one modulo 2^16
and leaves the `next` (high) field unchanged, for every lock word. -/
theorem ticket_spin_unlock_effect (w : Nat) :
    lockOwner (ticket_spin_unlock w) = (lockOwner w + 1) % 65536 ∧
    lockNext (ticket_spin_unlock w) = lockNext w := by
  simp only [ticket_spin_unlock, lockOwner, lockNext]
  constructor <;> omega

/-- C6: `value_unlocked` is true iff the high 16 bits equal the low 16 bits,
`is_locked` is the negation of `value_unlocked` on the snapshot it reads,
and the zero-initialized word is reported unlocked. -/
theorem ticket_spin_value_unlocked_iff (w : Nat) (hw : w < 4294967296) :
    (ticket_spin_value_unlocked w = true ↔ lockNext w = lockOwner w) ∧
    (ticket_spin_is_locked w = true ↔ ticket_spin_value_unlocked w = false) ∧
    ticket_spin_value_unlocked 0 = true := by
  refine ⟨?_, ?_, by decide⟩
  · simp only [ticket_spin_value_unlocked, lockNext, lockOwner, decide_eq_true_eq]
    omega
  · simp only [ticket_spin_is_locked, Bool.not_eq_true']

theorem ticket_spin_value_unlocked_iff_witness :
    (131073 : Nat) < 4294967296 ∧
    ((ticket_spin_value_unlocked 131073 = true ↔ lockNext 131073 = lockOwner 131073) ∧
     (ticket_spin_is_locked 131073 = true ↔ ticket_spin_value_unlocked 131073 = false) ∧
     ticket_spin_value_unlocked 0 = true) :=
  ⟨by decide, ticket_spin_value_unlocked_iff 131073 (by decide)⟩

/-- C3: `try_lock()` on a free lock (next = owner) returns true and the state
becomes the old word plus `1<<16` (so the caller holds the lock with ticket
equal to the prior `next`, which is now strictly ahead of `owner` by one);
on a held lock (next ≠ owner) it returns false and the word is unchanged. -/
theorem ticket_spin_trylock_cases (w : Nat) (hw : w < 4294967296) :
    (lockNext w = lockOwner w →
      ticket_spin_trylock w = (true, (w + 65536) % 4294967296) ∧
      lockOwner (ticket_spin_trylock w).2 = lockOwner w ∧
      lockNext (ticket_spin_trylock w).2 = (lockNext w + 1) % 65536) ∧
    (lockNext w ≠ lockOwner w → ticket_spin_trylock w = (false, w)) := by
  have hcase : (w + 65536) % 4294967296 = w + 65536 ∨
      (4294901760 ≤ w ∧ (w + 65536) % 4294967296 = w + 65536 - 4294967296) := by
    rcases Nat.lt_or_ge (w + 65536) 4294967296 with hlt | hge
    · exact Or.inl (Nat.mod_eq_of_lt hlt)
    · right
      constructor
      · omega
      · omega
  simp only [lockNext, lockOwner] at *
  constructor
  · intro hfree
    have hne : ¬ (w / 65536 ≠ w % 65536) := by omega
    refine ⟨by simp only [ticket_spin_trylock, if_neg hne], ?_, ?_⟩ <;>
        simp only [ticket_spin_trylock, if_neg hne]
    · rcases hcase with hsub | hsub
      · rw [hsub]
        omega
      · rw [hsub.2]
        omega
    · rcases hcase with hsub | hsub
      · rw [hsub, Nat.add_div_right w (by decide : 0 < 65536)]
        omega
      · rw [hsub.2]
        omega
  · intro hheld
    have hne : w / 65536 ≠ w % 65536 := by omega
    simp only [ticket_spin_trylock, if_pos hne]

theorem ticket_spin_trylock_cases_witness :
    ((0 : Nat) < 4294967296 ∧
      ((lockNext 0 = lockOwner 0 →
         ticket_spin_trylock 0 = (true, (0 + 65536) % 4294967296) ∧
         lockOwner (ticket_spin_trylock 0).2 = lockOwner 0 ∧
         lockNext (ticket_spin_trylock 0).2 = (lockNext 0 + 1) % 65536) ∧
       (lockNext 0 ≠ lockOwner 0 → ticket_spin_trylock 0 = (false, 0)))) ∧
    ((65536 : Nat) < 4294967296 ∧
      ((lockNext 65536 = lockOwner 65536 →
         ticket_spin_trylock 65536 = (true, (65536 + 65536) % 4294967296) ∧
         lockOwner (ticket_spin_trylock 65536).2 = lockOwner 65536 ∧
         lockNext (ticket_spin_trylock 65536).2 = (lockNext 65536 + 1) % 65536) ∧
       (lockNext 65536 ≠ lockOwner 65536 → ticket_spin_trylock 65536 = (false, 65536)))) :=
  ⟨⟨by decide, ticket_spin_trylock_cases 0 (by decide)⟩,
   ⟨by decide, ticket_spin_trylock_cases 65536 (by decide)⟩⟩

/-- C5 counterexample: at the word encoding next = 32768, owner = 0 there are
32768 contenders — one holder and 32767 waiters, fewer than 2^16 — and
`(next - owner) mod 2^16 = 32768 ≥ 2`, yet `is_contended` returns false,
because the signed 16-bit reading of the difference is negative. -/
theorem ticket_spin_is_contended_claim_false :
    (2147483648 : Nat) / 65536 % 65536 = 32768 ∧
    (2147483648 : Nat) % 65536 = 0 ∧
    (2 : Nat) ≤ (32768 + 65536 - 0) % 65536 ∧
    (32768 + 65536 - 0) % 65536 < 65536 ∧
    ticket_spin_is_contended 2147483648 = false := by
  refine ⟨by decide, by decide, by decide, by decide, by decide⟩

/-- C5 amended: `is_contended` returns true iff the unsigned 16-bit
difference `(next - owner) mod 2^16` lies in `[2, 2^15)`: the signed 16-bit
reading exceeds 1 exactly on that interval. Hence it is false with one
holder and zero waiters, and true with one holder and at least one waiter
provided fewer than 2^15 threads contend (not 2^16 as claimed). -/
theorem ticket_spin_is_contended_iff (w : Nat) (hw : w < 4294967296) :
    ticket_spin_is_contended w = true ↔
      (2 ≤ (lockNext w + 65536 - lockOwner w) % 65536 ∧
       (lockNext w + 65536 - lockOwner w) % 65536 < 32768) := by
  have hgen : ∀ d : Nat, d < 65536 →
      (((1 : Int) < if d < 32768 then (d : Int) else (d : Int) - 65536) ↔
        (2 ≤ d ∧ d < 32768)) := by
    intro d hd
    by_cases hlt : d < 32768
    · rw [if_pos hlt]
      constructor
      · intro h
        have h2 : (2 : Int) ≤ (d : Int) := by omega
        exact ⟨by exact_mod_cast h2, hlt⟩
      · intro h
        have h2 : (2 : Int) ≤ (d : Int) := by exact_mod_cast h.1
        omega
    · rw [if_neg hlt]
      constructor
      · intro h
        have hdI : (d : Int) < 65536 := by exact_mod_cast hd
        omega
      · intro h
        exact absurd h.2 hlt
  simp only [ticket_spin_is_contended, lockNext, lockOwner, decide_eq_true_eq]
  exact hgen ((w / 65536 % 65536 + 65536 - w % 65536) % 65536)
    (Nat.mod_lt _ (by decide))

theorem ticket_spin_is_contended_iff_witness :
    (131072 : Nat) < 4294967296 ∧
    (ticket_spin_is_contended 131072 = true ↔
      (2 ≤ (lockNext 131072 + 65536 - lockOwner 131072) % 65536 ∧
       (lockNext 131072 + 65536 - lockOwner 131072) % 65536 < 32768)) :=
  ⟨by decide, ticket_spin_is_contended_iff 131072 (by decide)⟩

end TicketLock

namespace Lrsc

/-- Threshold above which `pre_lrsc` inserts a delay (`NEED_DELAY`). -/
def NEED_DELAY : Nat := 64

/-- Number of buckets in the `lrsc_count` table (`ADDR_NUM`). -/
def ADDR_NUM : Nat := 128

/-- Thomas Wang's 64-bit integer hash, `hash_wang64`, with every shift and
addition wrapping modulo 2^64 as `unsigned long` arithmetic does. -/
def hash_wang64 (key : Nat) : Nat :=
  let m := 18446744073709551616
  let k0 := key % m
  let k1 := ((m - 1 - k0) + k0 * 2097152) % m
  let k2 := Nat.xor k1 (k1 / 16777216)
  let k3 := (k2 + k2 * 8 + k2 * 256) % m
  let k4 := Nat.xor k3 (k3 / 16384)
  let k5 := (k4 + k4 * 4 + k4 * 16) % m
  let k6 := Nat.xor k5 (k5 / 268435456)
  (k6 + k6 * 2147483648) % m

/-- The bucket an address maps to: `hash_wang64(addr) % ADDR_NUM`. -/
def lrsc_index (addr : Nat) : Nat := hash_wang64 addr % ADDR_NUM

/-- `pre_lrsc`: `count = ++lrsc_count[index]` (pre-increment, wrapping as a
16-bit `unsigned short`), then `ndelay(((count % 5) + 1) * 100)` when
`count >= NEED_DELAY`. The table is a function from bucket indices to
counter values; the second component is the nanosecond delay issued
(0 when no `ndelay` call happens). -/
def pre_lrsc (addr : Nat) (T : Nat → Nat) : (Nat → Nat) × Nat :=
  let index := lrsc_index addr
  let count := (T index + 1) % 65536
  (fun i => if i = index then count else T i,
   if NEED_DELAY ≤ count then (count % 5 + 1) * 100 else 0)

/-- `post_lrsc`: `count = lrsc_count[index]--` (post-decrement: `count` is the
old value and the stored counter wraps as a 16-bit `unsigned short`), then
`if (count == 0) lrsc_count[index] = 0` restores the bucket to zero. -/
def post_lrsc (addr : Nat) (T : Nat → Nat) : Nat → Nat :=
  let index := lrsc_index addr
  let count := T index
  let T2 := fun i => if i = index then (T index + 65535) % 65536 else T i
  if count = 0 then (fun i => if i = index then 0 else T2 i) else T2

/-- One bracketing call of the backoff table: `pre_lrsc` or `post_lrsc`
at some address. -/
inductive LrscOp where
  | pre (addr : Nat) : LrscOp
  | post (addr : Nat) : LrscOp

/-- Applies a sequence of `pre_lrsc`/`post_lrsc` calls to the
zero-initialized `lrsc_count` table, left to right. -/
def runLrsc (ops : List LrscOp) : Nat → Nat :=
  ops.foldl
    (fun T op =>
      match op with
      | .pre a => (pre_lrsc a T).1
      | .post a => post_lrsc a T)
    (fun _ => 0)

theorem runLrsc_lt (ops : List LrscOp) : ∀ i, runLrsc ops i < 65536 := by
  suffices h : ∀ (T : Nat → Nat), (∀ i, T i < 65536) →
      ∀ i, (ops.foldl
        (fun T op =>
          match op with
          | LrscOp.pre a => (pre_lrsc a T).1
          | LrscOp.post a => post_lrsc a T) T) i < 65536 by
    exact h (fun _ => 0) (fun i => by show (0 : Nat) < 65536; decide)
  induction ops with
  | nil => intro T hT i; exact hT i
  | cons op rest ih =>
    intro T hT i
    simp only [List.foldl_cons]
    apply ih
    intro j
    cases op with
    | pre a =>
      simp only [pre_lrsc]
      by_cases hj : j = lrsc_index a
      · simp only [if_pos hj]
        exact Nat.mod_lt _ (by decide)
      · simp only [if_neg hj]
        exact hT j
    | post a =>
      simp only [post_lrsc]
      by_cases h0 : T (lrsc_index a) = 0
      · simp only [if_pos h0]
        by_cases hj : j = lrsc_index a
        · simp only [if_pos hj]
          decide
        · simp only [if_neg hj]
          exact hT j
      · simp only [if_neg h0]
        by_cases hj : j = lrsc_index a
        · simp only [if_pos hj]
          exact Nat.mod_lt _ (by decide)
        · simp only [if_neg hj]
          exact hT j

theorem pre_lrsc_apply (addr : Nat) (T : Nat → Nat) (j : Nat) :
    (pre_lrsc addr T).1 j =
      if j = lrsc_index addr then (T (lrsc_index addr) + 1) % 65536 else T j := by
  unfold pre_lrsc
  by_cases hj : j = lrsc_index addr <;> simp [hj]

theorem pre_lrsc_delay_eq (addr : Nat) (T : Nat → Nat) :
    (pre_lrsc addr T).2 =
      if 64 ≤ (T (lrsc_index addr) + 1) % 65536
      then ((T (lrsc_index addr) + 1) % 65536 % 5 + 1) * 100 else 0 := by
  unfold pre_lrsc NEED_DELAY
  rfl

theorem post_lrsc_apply (addr : Nat) (T : Nat → Nat) (j : Nat) :
    post_lrsc addr T j =
      if j = lrsc_index addr then
        (if T (lrsc_index addr) = 0 then 0 else (T (lrsc_index addr) + 65535) % 65536)
      else T j := by
  unfold post_lrsc
  by_cases h0 : T (lrsc_index addr) = 0 <;> by_cases hj : j = lrsc_index addr <;>
    simp [h0, hj]

/-- C7: `pre_lrsc(addr)` increments the counter of bucket
`hash_wang64(addr) % 128` and, using the post-increment count, issues a delay
of exactly `((count % 5) + 1) * 100` nanoseconds when `count >= 64` and no
delay when `count < 64`; every issued delay is between 100 and 500. -/
theorem pre_lrsc_delay (T : Nat → Nat) (addr : Nat)
    (h : T (lrsc_index addr) < 65535) :
    (pre_lrsc addr T).1 (lrsc_index addr) = T (lrsc_index addr) + 1 ∧
    (pre_lrsc addr T).2 =
      (if 64 ≤ T (lrsc_index addr) + 1
       then ((T (lrsc_index addr) + 1) % 5 + 1) * 100 else 0) ∧
    ((pre_lrsc addr T).2 ≠ 0 →
      100 ≤ (pre_lrsc addr T).2 ∧ (pre_lrsc addr T).2 ≤ 500) := by
  have hmod : (T (lrsc_index addr) + 1) % 65536 = T (lrsc_index addr) + 1 :=
    Nat.mod_eq_of_lt (by omega)
  rw [pre_lrsc_apply, if_pos rfl, hmod, pre_lrsc_delay_eq, hmod]
  refine ⟨rfl, rfl, ?_⟩
  by_cases hc : 64 ≤ T (lrsc_index addr) + 1
  · rw [if_pos hc]
    intro hne
    have h5 : (T (lrsc_index addr) + 1) % 5 ≤ 4 := by omega
    omega
  · rw [if_neg hc]
    intro hne
    exact absurd rfl hne

theorem pre_lrsc_delay_witness :
    ((fun _ : Nat => (63 : Nat)) (lrsc_index 0) < 65535 ∧
      ((pre_lrsc 0 (fun _ : Nat => 63)).1 (lrsc_index 0) =
          (fun _ : Nat => (63 : Nat)) (lrsc_index 0) + 1 ∧
       (pre_lrsc 0 (fun _ : Nat => 63)).2 =
         (if 64 ≤ (fun _ : Nat => (63 : Nat)) (lrsc_index 0) + 1
          then (((fun _ : Nat => (63 : Nat)) (lrsc_index 0) + 1) % 5 + 1) * 100
          else 0) ∧
       ((pre_lrsc 0 (fun _ : Nat => 63)).2 ≠ 0 →
         100 ≤ (pre_lrsc 0 (fun _ : Nat => 63)).2 ∧
         (pre_lrsc 0 (fun _ : Nat => 63)).2 ≤ 500))) :=
  ⟨by decide, pre_lrsc_delay (fun _ : Nat => 63) 0 (by decide)⟩

/-- C8: starting from the zero-initialized table, after any sequence of
`pre_lrsc`/`post_lrsc` calls a further `post_lrsc` decrements its bucket by
exactly one when the counter is positive and leaves it at zero when it is
zero (truncated subtraction on naturals), never wrapping to 65535; all
other buckets are untouched. -/
theorem post_lrsc_no_underflow (ops : List LrscOp) (a j : Nat) :
    post_lrsc a (runLrsc ops) j =
      if j = lrsc_index a then runLrsc ops j - 1 else runLrsc ops j := by
  have hlt : runLrsc ops (lrsc_index a) < 65536 := runLrsc_lt ops (lrsc_index a)
  rw [post_lrsc_apply]
  by_cases hj : j = lrsc_index a
  · subst hj
    rw [if_pos rfl, if_pos rfl]
    by_cases h0 : runLrsc ops (lrsc_index a) = 0
    · rw [if_pos h0]
      omega
    · rw [if_neg h0]
      omega
  · rw [if_neg hj, if_neg hj]

/-- C9 counterexample: a bucket counter at the maximum value 65535 is wrapped
around to 0 by `pre_lrsc` — the counters are not saturating on increment. -/
theorem pre_lrsc_wraps_at_max :
    (pre_lrsc 0 (fun _ : Nat => 65535)).1 (lrsc_index 0) = 0 ∧
    (pre_lrsc 0 (fun _ : Nat => 65535)).1 (lrsc_index 0) ≠ 65535 := by
  constructor
  · decide
  · decide

/-- C9 amended: the bucket counters are 16-bit counters that wrap modulo 2^16
on increment: when a bucket stands at 65535, `pre_lrsc` sets it to 0 (only
the decrement side, `post_lrsc`, clamps, at the zero floor). -/
theorem pre_lrsc_wrap_modular (T : Nat → Nat) (addr : Nat)
    (h : T (lrsc_index addr) = 65535) :
    (pre_lrsc addr T).1 (lrsc_index addr) = 0 := by
  rw [pre_lrsc_apply, if_pos rfl, h]

theorem pre_lrsc_wrap_modular_witness :
    ((fun _ : Nat => (65535 : Nat)) (lrsc_index 0) = 65535 ∧
      (pre_lrsc 0 (fun _ : Nat => 65535)).1 (lrsc_index 0) = 0) :=
  ⟨rfl, pre_lrsc_wrap_modular (fun _ : Nat => 65535) 0 rfl⟩

/-- C10: when the addressed bucket is strictly below 65535, the pair
`post_lrsc(addr) ∘ pre_lrsc(addr)` restores the whole table: both calls hash
to the same bucket, the decrement undoes the increment, and every other
bucket is untouched. -/
theorem pre_post_lrsc_roundtrip (T : Nat → Nat) (addr j : Nat)
    (h : T (lrsc_index addr) < 65535) :
    post_lrsc addr (pre_lrsc addr T).1 j = T j := by
  have hpre : (pre_lrsc addr T).1 (lrsc_index addr) = T (lrsc_index addr) + 1 := by
    rw [pre_lrsc_apply, if_pos rfl]
    exact Nat.mod_eq_of_lt (by omega)
  have hne : (pre_lrsc addr T).1 (lrsc_index addr) ≠ 0 := by
    rw [hpre]; omega
  rw [post_lrsc_apply, if_neg hne]
  by_cases hj : j = lrsc_index addr
  · subst hj
    rw [if_pos rfl, hpre]
    omega
  · rw [if_neg hj, pre_lrsc_apply, if_neg hj]

theorem pre_post_lrsc_roundtrip_witness :
    ((fun _ : Nat => (0 : Nat)) (lrsc_index 0) < 65535 ∧
      post_lrsc 0 (pre_lrsc 0 (fun _ : Nat => 0)).1 7 = (fun _ : Nat => (0 : Nat)) 7) :=
  ⟨by decide, pre_post_lrsc_roundtrip (fun _ : Nat => 0) 0 7 (by decide)⟩

end Lrsc

namespace TicketProtocol

/-- Control state of one thread running `ticket_spin_lock` / `ticket_spin_unlock`
on a shared lock: it has not started, it is spinning in
`atomic_cond_read_acquire` with its assigned ticket, it holds the lock with
that ticket, or it has released the lock. -/
inductive TState where
  | idle : TState
  | waiting (ticket : Nat) : TState
  | holding (ticket : Nat) : TState
  | released : TState
deriving DecidableEq

/-- Shared state of the system: the 32-bit lock word and each thread's
control state (threads are named by naturals). -/
structure Config where
  val : Nat
  ts : Nat → TState

/-- The atomic events of the lock protocol: a thread's
`atomic_fetch_add_acquire(1<<16, ...)` (with the local fast-path test on the
returned old value), the exit of its `atomic_cond_read_acquire` spin when the
owner field reaches its ticket, and its `ticket_spin_unlock` store. -/
inductive Ev where
  | fetchAdd (t : Nat) : Ev
  | acquire (t : Nat) : Ev
  | unlock (t : Nat) : Ev
deriving DecidableEq

/-- Interleaving small-step semantics of `ticket_spin_lock`/`ticket_spin_unlock`:

* `fetchAdd t` — thread `t` enters `ticket_spin_lock`: the word gains `1<<16`
  modulo 2^32, the ticket is the old value's high half truncated to 16 bits,
  and if `ticket == (u16)val` the thread acquires immediately, otherwise it
  spins;
* `acquire t` — a spinning thread observes `ticket == (u16)VAL` and exits
  `atomic_cond_read_acquire`;
* `unlock t` — the holder stores `(u16)val + 1` into the low half-word,
  leaving the high half untouched.

A step is `none` when the event is not enabled at this configuration. -/
def step (c : Config) (e : Ev) : Option Config :=
  match e with
  | .fetchAdd t =>
    match c.ts t with
    | .idle =>
      let old := c.val
      let ticket := old / 65536 % 65536
      let nv := (old + 65536) % 4294967296
      if ticket = old % 65536 then
        some ⟨nv, fun u => if u = t then .holding ticket else c.ts u⟩
      else
        some ⟨nv, fun u => if u = t then .waiting ticket else c.ts u⟩
    | _ => none
  | .acquire t =>
    match c.ts t with
    | .waiting k =>
      if k = c.val % 65536 then
        some ⟨c.val, fun u => if u = t then .holding k else c.ts u⟩
      else none
    | _ => none
  | .unlock t =>
    match c.ts t with
    | .holding _ =>
      some ⟨c.val / 65536 * 65536 + (c.val % 65536 + 1) % 65536,
            fun u => if u = t then .released else c.ts u⟩
    | _ => none

/-- Runs a list of events from a configuration, failing if any event is not
enabled where it occurs. -/
def run (c : Config) : List Ev → Option Config
  | [] => some c
  | e :: es =>
    match step c e with
    | some c2 => run c2 es
    | none => none

/-- The zero-initialized lock with all threads idle. -/
def init : Config := ⟨0, fun _ => .idle⟩

def isFetchAdd : Ev → Bool
  | .fetchAdd _ => true
  | _ => false

def isUnlock : Ev → Bool
  | .unlock _ => true
  | _ => false

/-- Number of fetch-add events in a trace. -/
def FA (p : List Ev) : Nat := p.countP isFetchAdd

/-- Number of unlock events in a trace. -/
def UN (p : List Ev) : Nat := p.countP isUnlock

/-- A thread has been granted the lock (it holds it now or has already
released it). -/
def hasAcquired (c : Config) (t : Nat) : Bool :=
  match c.ts t with
  | .holding _ => true
  | .released => true
  | _ => false

theorem run_append (p q : List Ev) (c : Config) :
    run c (p ++ q) = (run c p).bind (fun c2 => run c2 q) := by
  induction p generalizing c with
  | nil => rfl
  | cons e es ih =>
    simp only [List.cons_append, run]
    cases step c e with
    | none => rfl
    | some c2 => exact ih c2

theorem FA_append (p q : List Ev) : FA (p ++ q) = FA p + FA q :=
  List.countP_append _ _ _

theorem UN_append (p q : List Ev) : UN (p ++ q) = UN p + UN q :=
  List.countP_append _ _ _

theorem FA_take_le (p : List Ev) (n : Nat) : FA (p.take n) ≤ FA p := by
  conv_rhs => rw [← List.take_append_drop n p]
  rw [FA_append]
  omega

theorem FA_take_mono (p : List Ev) {m n : Nat} (h : m ≤ n) :
    FA (p.take m) ≤ FA (p.take n) := by
  have heq : p.take m = (p.take n).take m := by
    rw [List.take_take, Nat.min_eq_left h]
  rw [heq]
  exact FA_take_le (p.take n) m

theorem FA_take_succ_fetchAdd (p : List Ev) (i t : Nat)
    (h : p[i]? = some (Ev.fetchAdd t)) :
    FA (p.take (i + 1)) = FA (p.take i) + 1 := by
  rw [List.take_succ, h, FA_append]
  rfl

theorem FA_take_lt_of_pos_lt (p : List Ev) {i j : Nat} {t : Nat} (hij : i < j)
    (h : p[i]? = some (Ev.fetchAdd t)) :
    FA (p.take i) < FA (p.take j) := by
  have h1 : FA (p.take (i + 1)) = FA (p.take i) + 1 := FA_take_succ_fetchAdd p i t h
  have h2 : FA (p.take (i + 1)) ≤ FA (p.take j) := FA_take_mono p hij
  omega

theorem FA_take_lt (p : List Ev) {i t : Nat} (h : p[i]? = some (Ev.fetchAdd t)) :
    FA (p.take i) < FA p := by
  have hlen : i < p.length := (List.getElem?_eq_some.mp h).1
  have := FA_take_lt_of_pos_lt p hlen h
  rwa [List.take_length] at this

theorem fetchAdd_pos_inj (p : List Ev) {i j a b : Nat}
    (hi : p[i]? = some (Ev.fetchAdd a)) (hj : p[j]? = some (Ev.fetchAdd b))
    (hFA : FA (p.take i) = FA (p.take j)) : i = j := by
  rcases Nat.lt_trichotomy i j with h | h | h
  · exact absurd hFA (Nat.ne_of_lt (FA_take_lt_of_pos_lt p h hi))
  · exact h
  · exact absurd hFA.symm (Nat.ne_of_lt (FA_take_lt_of_pos_lt p h hj))

theorem FA_fetchAdd_concat (p : List Ev) (t : Nat) :
    FA (p ++ [Ev.fetchAdd t]) = FA p + 1 := by
  rw [FA_append]
  rfl

theorem FA_acquire_concat (p : List Ev) (t : Nat) :
    FA (p ++ [Ev.acquire t]) = FA p := by
  rw [FA_append]
  rfl

theorem FA_unlock_concat (p : List Ev) (t : Nat) :
    FA (p ++ [Ev.unlock t]) = FA p := by
  rw [FA_append]
  rfl

theorem UN_fetchAdd_concat (p : List Ev) (t : Nat) :
    UN (p ++ [Ev.fetchAdd t]) = UN p := by
  rw [UN_append]
  rfl

theorem UN_acquire_concat (p : List Ev) (t : Nat) :
    UN (p ++ [Ev.acquire t]) = UN p := by
  rw [UN_append]
  rfl

theorem UN_unlock_concat (p : List Ev) (t : Nat) :
    UN (p ++ [Ev.unlock t]) = UN p + 1 := by
  rw [UN_append]
  rfl

theorem take_concat_stable (p : List Ev) (e : Ev) {pos : Nat} (h : pos ≤ p.length) :
    (p ++ [e]).take pos = p.take pos := by
  rw [List.take_append_eq_append_take]
  have h0 : pos - p.length = 0 := by omega
  rw [h0]
  simp

theorem getElem_concat_stable (p : List Ev) (e : Ev) {pos : Nat} {x : Ev}
    (h : p[pos]? = some x) : (p ++ [e])[pos]? = some x := by
  have hlen : pos < p.length := (List.getElem?_eq_some.mp h).1
  rw [List.getElem?_append_left hlen]
  exact h

theorem mem_of_getElem_eq {l : List Ev} {n : Nat} {a : Ev} (h : l[n]? = some a) :
    a ∈ l := by
  obtain ⟨hlt, heq⟩ := List.getElem?_eq_some.mp h
  exact heq ▸ List.getElem_mem hlt

/-- The inductive invariant of the ticket-lock protocol, tying a reachable
configuration to ghost data recovered from the trace: the lock word encodes
the fetch-add and unlock counts modulo 2^16; a waiting thread's ticket is the
fetch-add count at its own fetch-add position, not yet passed by the owner
count; a holder's fetch-add index equals the unlock count; a released
thread's index is below it. -/
structure Inv (p : List Ev) (c : Config) : Prop where
  val_eq : c.val = FA p % 65536 * 65536 + UN p % 65536
  un_le : UN p ≤ FA p
  idle_iff : ∀ t, c.ts t = TState.idle ↔ Ev.fetchAdd t ∉ p
  waiting_spec : ∀ t k, c.ts t = TState.waiting k →
    ∃ pos, p[pos]? = some (Ev.fetchAdd t) ∧ k = FA (p.take pos) % 65536 ∧
      UN p ≤ FA (p.take pos)
  holding_spec : ∀ t k, c.ts t = TState.holding k →
    ∃ pos, p[pos]? = some (Ev.fetchAdd t) ∧ FA (p.take pos) = UN p
  released_spec : ∀ t, c.ts t = TState.released →
    ∃ pos, p[pos]? = some (Ev.fetchAdd t) ∧ FA (p.take pos) < UN p

theorem Inv_init : Inv [] init := by
  refine ⟨rfl, Nat.le_refl 0, ?_, ?_, ?_, ?_⟩
  · intro t
    simp [init]
  · intro t k h
    simp [init] at h
  · intro t k h
    simp [init] at h
  · intro t h
    simp [init] at h

theorem Inv_step {p : List Ev} {c c2 : Config} {e : Ev}
    (hInv : Inv p c) (hstep : step c e = some c2)
    (hbound : FA (p ++ [e]) ≤ 65536) :
    Inv (p ++ [e]) c2 := by
  obtain ⟨hval, hun, hidle, hwait, hhold, hrel⟩ := hInv
  have hv1 : c.val / 65536 = FA p % 65536 := by
    rw [hval]; omega
  have hv2 : c.val % 65536 = UN p % 65536 := by
    rw [hval]; omega
  cases e with
  | fetchAdd t =>
    rw [FA_fetchAdd_concat] at hbound
    have hmemt : Ev.fetchAdd t ∈ p ++ [Ev.fetchAdd t] :=
      List.mem_append_right p (List.mem_singleton.mpr rfl)
    have hget_new : (p ++ [Ev.fetchAdd t])[p.length]? = some (Ev.fetchAdd t) :=
      List.getElem?_concat_length p _
    have htake_new : (p ++ [Ev.fetchAdd t]).take p.length = p := List.take_left p _
    cases hct : c.ts t with
    | waiting k0 => simp [step, hct] at hstep
    | holding k0 => simp [step, hct] at hstep
    | released => simp [step, hct] at hstep
    | idle =>
      simp only [step, hct] at hstep
      by_cases hcond : c.val / 65536 % 65536 = c.val % 65536
      · rw [if_pos hcond] at hstep
        injection hstep with hc2
        subst hc2
        have hFU : FA p = UN p := by
          rw [hv1, hv2] at hcond
          omega
        refine ⟨?_, ?_, ?_, ?_, ?_, ?_⟩
        · dsimp only
          rw [FA_fetchAdd_concat, UN_fetchAdd_concat, hval]
          omega
        · rw [FA_fetchAdd_concat, UN_fetchAdd_concat]
          omega
        · intro u
          dsimp only
          by_cases hu : u = t
          · subst hu
            rw [if_pos rfl]
            exact iff_of_false (by simp) (by simp)
          · rw [if_neg hu, hidle u]
            have hmemu : (Ev.fetchAdd u ∈ p ++ [Ev.fetchAdd t]) ↔ Ev.fetchAdd u ∈ p := by
              simp [List.mem_append, hu]
            rw [not_congr hmemu]
        · intro u k h
          dsimp only at h
          by_cases hu : u = t
          · subst hu
            rw [if_pos rfl] at h
            simp at h
          · rw [if_neg hu] at h
            obtain ⟨pos, hpos, hk, hUle⟩ := hwait u k h
            have hplen : pos < p.length := (List.getElem?_eq_some.mp hpos).1
            refine ⟨pos, getElem_concat_stable p _ hpos, ?_, ?_⟩
            · rw [take_concat_stable p _ (Nat.le_of_lt hplen)]
              exact hk
            · rw [take_concat_stable p _ (Nat.le_of_lt hplen), UN_fetchAdd_concat]
              exact hUle
        · intro u k h
          dsimp only at h
          by_cases hu : u = t
          · subst hu
            refine ⟨p.length, hget_new, ?_⟩
            rw [htake_new, UN_fetchAdd_concat]
            exact hFU
          · rw [if_neg hu] at h
            obtain ⟨pos, hpos, hFAeq⟩ := hhold u k h
            have hplen : pos < p.length := (List.getElem?_eq_some.mp hpos).1
            refine ⟨pos, getElem_concat_stable p _ hpos, ?_⟩
            rw [take_concat_stable p _ (Nat.le_of_lt hplen), UN_fetchAdd_concat]
            exact hFAeq
        · intro u h
          dsimp only at h
          by_cases hu : u = t
          · subst hu
            rw [if_pos rfl] at h
            simp at h
          · rw [if_neg hu] at h
            obtain ⟨pos, hpos, hlt2⟩ := hrel u h
            have hplen : pos < p.length := (List.getElem?_eq_some.mp hpos).1
            refine ⟨pos, getElem_concat_stable p _ hpos, ?_⟩
            rw [take_concat_stable p _ (Nat.le_of_lt hplen), UN_fetchAdd_concat]
            exact hlt2
      · rw [if_neg hcond] at hstep
        injection hstep with hc2
        subst hc2
        refine ⟨?_, ?_, ?_, ?_, ?_, ?_⟩
        · dsimp only
          rw [FA_fetchAdd_concat, UN_fetchAdd_concat, hval]
          omega
        · rw [FA_fetchAdd_concat, UN_fetchAdd_concat]
          omega
        · intro u
          dsimp only
          by_cases hu : u = t
          · subst hu
            rw [if_pos rfl]
            exact iff_of_false (by simp) (by simp)
          · rw [if_neg hu, hidle u]
            have hmemu : (Ev.fetchAdd u ∈ p ++ [Ev.fetchAdd t]) ↔ Ev.fetchAdd u ∈ p := by
              simp [List.mem_append, hu]
            rw [not_congr hmemu]
        · intro u k h
          dsimp only at h
          by_cases hu : u = t
          · subst hu
            rw [if_pos rfl] at h
            injection h with hk
            refine ⟨p.length, hget_new, ?_, ?_⟩
            · rw [htake_new, ← hk, hv1]
              omega
            · rw [htake_new, UN_fetchAdd_concat]
              exact hun
          · rw [if_neg hu] at h
            obtain ⟨pos, hpos, hk, hUle⟩ := hwait u k h
            have hplen : pos < p.length := (List.getElem?_eq_some.mp hpos).1
            refine ⟨pos, getElem_concat_stable p _ hpos, ?_, ?_⟩
            · rw [take_concat_stable p _ (Nat.le_of_lt hplen)]
              exact hk
            · rw [take_concat_stable p _ (Nat.le_of_lt hplen), UN_fetchAdd_concat]
              exact hUle
        · intro u k h
          dsimp only at h
          by_cases hu : u = t
          · subst hu
            rw [if_pos rfl] at h
            simp at h
          · rw [if_neg hu] at h
            obtain ⟨pos, hpos, hFAeq⟩ := hhold u k h
            have hplen : pos < p.length := (List.getElem?_eq_some.mp hpos).1
            refine ⟨pos, getElem_concat_stable p _ hpos, ?_⟩
            rw [take_concat_stable p _ (Nat.le_of_lt hplen), UN_fetchAdd_concat]
            exact hFAeq
        · intro u h
          dsimp only at h
          by_cases hu : u = t
          · subst hu
            rw [if_pos rfl] at h
            simp at h
          · rw [if_neg hu] at h
            obtain ⟨pos, hpos, hlt2⟩ := hrel u h
            have hplen : pos < p.length := (List.getElem?_eq_some.mp hpos).1
            refine ⟨pos, getElem_concat_stable p _ hpos, ?_⟩
            rw [take_concat_stable p _ (Nat.le_of_lt hplen), UN_fetchAdd_concat]
            exact hlt2
  | acquire t =>
    rw [FA_acquire_concat] at hbound
    cases hct : c.ts t with
    | idle => simp [step, hct] at hstep
    | holding k0 => simp [step, hct] at hstep
    | released => simp [step, hct] at hstep
    | waiting k0 =>
      simp only [step, hct] at hstep
      by_cases hcond : k0 = c.val % 65536
      · rw [if_pos hcond] at hstep
        injection hstep with hc2
        subst hc2
        obtain ⟨pos0, hpos0, hk0, hUle0⟩ := hwait t k0 hct
        have hpos0len : pos0 < p.length := (List.getElem?_eq_some.mp hpos0).1
        have hFAlt : FA (p.take pos0) < FA p := FA_take_lt p hpos0
        have hiU : FA (p.take pos0) = UN p := by
          rw [hv2] at hcond
          omega
        have hmemt : Ev.fetchAdd t ∈ p := mem_of_getElem_eq hpos0
        refine ⟨?_, ?_, ?_, ?_, ?_, ?_⟩
        · dsimp only
          rw [FA_acquire_concat, UN_acquire_concat]
          exact hval
        · rw [FA_acquire_concat, UN_acquire_concat]
          exact hun
        · intro u
          dsimp only
          have hmemu : (Ev.fetchAdd u ∈ p ++ [Ev.acquire t]) ↔ Ev.fetchAdd u ∈ p := by
            simp [List.mem_append]
          by_cases hu : u = t
          · subst hu
            rw [if_pos rfl]
            exact iff_of_false (by simp) (by simp [hmemt])
          · rw [if_neg hu, hidle u, not_congr hmemu]
        · intro u k h
          dsimp only at h
          by_cases hu : u = t
          · subst hu
            rw [if_pos rfl] at h
            simp at h
          · rw [if_neg hu] at h
            obtain ⟨pos, hpos, hk, hUle⟩ := hwait u k h
            have hplen : pos < p.length := (List.getElem?_eq_some.mp hpos).1
            refine ⟨pos, getElem_concat_stable p _ hpos, ?_, ?_⟩
            · rw [take_concat_stable p _ (Nat.le_of_lt hplen)]
              exact hk
            · rw [take_concat_stable p _ (Nat.le_of_lt hplen), UN_acquire_concat]
              exact hUle
        · intro u k h
          dsimp only at h
          by_cases hu : u = t
          · subst hu
            refine ⟨pos0, getElem_concat_stable p _ hpos0, ?_⟩
            rw [take_concat_stable p _ (Nat.le_of_lt hpos0len), UN_acquire_concat]
            exact hiU
          · rw [if_neg hu] at h
            obtain ⟨pos, hpos, hFAeq⟩ := hhold u k h
            have hplen : pos < p.length := (List.getElem?_eq_some.mp hpos).1
            refine ⟨pos, getElem_concat_stable p _ hpos, ?_⟩
            rw [take_concat_stable p _ (Nat.le_of_lt hplen), UN_acquire_concat]
            exact hFAeq
        · intro u h
          dsimp only at h
          by_cases hu : u = t
          · subst hu
            rw [if_pos rfl] at h
            simp at h
          · rw [if_neg hu] at h
            obtain ⟨pos, hpos, hlt2⟩ := hrel u h
            have hplen : pos < p.length := (List.getElem?_eq_some.mp hpos).1
            refine ⟨pos, getElem_concat_stable p _ hpos, ?_⟩
            rw [take_concat_stable p _ (Nat.le_of_lt hplen), UN_acquire_concat]
            exact hlt2
      · rw [if_neg hcond] at hstep
        simp at hstep
  | unlock t =>
    rw [FA_unlock_concat] at hbound
    cases hct : c.ts t with
    | idle => simp [step, hct] at hstep
    | waiting k0 => simp [step, hct] at hstep
    | released => simp [step, hct] at hstep
    | holding k0 =>
      simp only [step, hct] at hstep
      injection hstep with hc2
      subst hc2
      obtain ⟨posh, hposh, hFAh⟩ := hhold t k0 hct
      have hposhlen : posh < p.length := (List.getElem?_eq_some.mp hposh).1
      have hUlt : UN p < FA p := by
        have := FA_take_lt p hposh
        omega
      have hmemt : Ev.fetchAdd t ∈ p := mem_of_getElem_eq hposh
      refine ⟨?_, ?_, ?_, ?_, ?_, ?_⟩
      · dsimp only
        rw [FA_unlock_concat, UN_unlock_concat, hv1, hv2]
        omega
      · rw [FA_unlock_concat, UN_unlock_concat]
        omega
      · intro u
        dsimp only
        have hmemu : (Ev.fetchAdd u ∈ p ++ [Ev.unlock t]) ↔ Ev.fetchAdd u ∈ p := by
          simp [List.mem_append]
        by_cases hu : u = t
        · subst hu
          rw [if_pos rfl]
          exact iff_of_false (by simp) (by simp [hmemt])
        · rw [if_neg hu, hidle u, not_congr hmemu]
      · intro u k h
        dsimp only at h
        by_cases hu : u = t
        · subst hu
          rw [if_pos rfl] at h
          simp at h
        · rw [if_neg hu] at h
          obtain ⟨pos, hpos, hk, hUle⟩ := hwait u k h
          have hplen : pos < p.length := (List.getElem?_eq_some.mp hpos).1
          have hne2 : FA (p.take pos) ≠ UN p := by
            intro heq
            have hpp : pos = posh := fetchAdd_pos_inj p hpos hposh (heq.trans hFAh.symm)
            rw [hpp, hposh] at hpos
            injection hpos with h1
            injection h1 with h2
            exact hu h2.symm
          refine ⟨pos, getElem_concat_stable p _ hpos, ?_, ?_⟩
          · rw [take_concat_stable p _ (Nat.le_of_lt hplen)]
            exact hk
          · rw [take_concat_stable p _ (Nat.le_of_lt hplen), UN_unlock_concat]
            omega
      · intro u k h
        dsimp only at h
        by_cases hu : u = t
        · subst hu
          rw [if_pos rfl] at h
          simp at h
        · rw [if_neg hu] at h
          obtain ⟨pos, hpos, hFAeq⟩ := hhold u k h
          exfalso
          have hpp : pos = posh := fetchAdd_pos_inj p hpos hposh (hFAeq.trans hFAh.symm)
          rw [hpp, hposh] at hpos
          injection hpos with h1
          injection h1 with h2
          exact hu h2.symm
      · intro u h
        dsimp only at h
        by_cases hu : u = t
        · subst hu
          refine ⟨posh, getElem_concat_stable p _ hposh, ?_⟩
          rw [take_concat_stable p _ (Nat.le_of_lt hposhlen), UN_unlock_concat]
          omega
        · rw [if_neg hu] at h
          obtain ⟨pos, hpos, hlt2⟩ := hrel u h
          have hplen : pos < p.length := (List.getElem?_eq_some.mp hpos).1
          refine ⟨pos, getElem_concat_stable p _ hpos, ?_⟩
          rw [take_concat_stable p _ (Nat.le_of_lt hplen), UN_unlock_concat]
          omega

theorem Inv_run (p : List Ev) (c : Config)
    (hrun : run init p = some c) (hbound : FA p ≤ 65536) : Inv p c := by
  induction p using List.reverseRecOn generalizing c with
  | nil =>
    simp only [run] at hrun
    injection hrun with hc
    subst hc
    exact Inv_init
  | append_singleton q e ih =>
    rw [run_append] at hrun
    cases hq : run init q with
    | none =>
      rw [hq] at hrun
      simp at hrun
    | some c1 =>
      rw [hq] at hrun
      simp only [Option.some_bind] at hrun
      have hb1 : FA q ≤ 65536 := by
        rw [FA_append] at hbound
        omega
      have hinv1 := ih c1 hq hb1
      cases hs : step c1 e with
      | none => simp [run, hs] at hrun
      | some c2 =>
        simp only [run, hs] at hrun
        injection hrun with hc
        subst hc
        exact Inv_step hinv1 hs hbound

theorem run_take_isSome {tr : List Ev} {c : Config}
    (h : run init tr = some c) (n : Nat) :
    ∃ c1, run init (tr.take n) = some c1 := by
  have happ := run_append (tr.take n) (tr.drop n) init
  rw [List.take_append_drop, h] at happ
  cases hq : run init (tr.take n) with
  | none =>
    rw [hq] at happ
    simp at happ
  | some c1 => exact ⟨c1, rfl⟩

theorem step_at {tr : List Ev} {c : Config} (h : run init tr = some c)
    {n : Nat} {e : Ev} (hn : tr[n]? = some e) :
    ∃ c1 c2, run init (tr.take n) = some c1 ∧ step c1 e = some c2 := by
  obtain ⟨c1, hc1⟩ := run_take_isSome h n
  obtain ⟨hlen, hEq⟩ := List.getElem?_eq_some.mp hn
  have hdrop : tr.drop n = e :: tr.drop (n + 1) := by
    rw [List.drop_eq_getElem_cons hlen, hEq]
  have happ := run_append (tr.take n) (tr.drop n) init
  rw [List.take_append_drop, h, hc1] at happ
  rw [hdrop] at happ
  simp only [Option.some_bind] at happ
  cases hs : step c1 e with
  | none => simp [run, hs] at happ
  | some c2 => exact ⟨c1, c2, hc1, hs⟩

theorem fetchAdd_pos_unique {tr : List Ev} {c : Config}
    (hrun : run init tr = some c) (hbound : FA tr ≤ 65536) {i j t : Nat}
    (hi : tr[i]? = some (Ev.fetchAdd t)) (hj : tr[j]? = some (Ev.fetchAdd t)) :
    i = j := by
  have key : ∀ {a b : Nat}, tr[a]? = some (Ev.fetchAdd t) →
      tr[b]? = some (Ev.fetchAdd t) → ¬ a < b := by
    intro a b ha hb hab
    obtain ⟨c1, c2, hc1, hs⟩ := step_at hrun hb
    have hb1 : FA (tr.take b) ≤ 65536 := le_trans (FA_take_le tr b) hbound
    have hinv1 := Inv_run (tr.take b) c1 hc1 hb1
    have hmem : Ev.fetchAdd t ∈ tr.take b := by
      have hsub : (tr.take b)[a]? = some (Ev.fetchAdd t) := by
        rw [List.getElem?_take_of_lt hab]
        exact ha
      exact mem_of_getElem_eq hsub
    cases hct : c1.ts t with
    | idle => exact absurd hmem ((hinv1.idle_iff t).mp hct)
    | waiting k0 => simp [step, hct] at hs
    | holding k0 => simp [step, hct] at hs
    | released => simp [step, hct] at hs
  rcases Nat.lt_trichotomy i j with h | h | h
  · exact absurd h (key hi hj)
  · exact h
  · exact absurd h (key hj hi)

/-- C1: strict FIFO fairness of `ticket_spin_lock` in the interleaving
semantics: in every valid trace from the zero-initialized lock with at most
2^16 fetch-adds (the fewer-than-2^16-simultaneous-contenders contract: each
thread locks once), if thread A's fetch-add precedes thread B's and B has
been granted the lock, then A has already been granted it — so acquisitions
happen in the exact order of the fetch-adds. -/
theorem ticket_spin_lock_fifo (tr : List Ev) (c : Config) (A B i j : Nat)
    (hrun : run init tr = some c) (hbound : FA tr ≤ 65536) (hij : i < j)
    (hi : tr[i]? = some (Ev.fetchAdd A)) (hj : tr[j]? = some (Ev.fetchAdd B))
    (hB : hasAcquired c B = true) : hasAcquired c A = true := by
  have hinv := Inv_run tr c hrun hbound
  cases hctA : c.ts A with
  | holding kA => simp [hasAcquired, hctA]
  | released => simp [hasAcquired, hctA]
  | idle =>
    exact absurd (mem_of_getElem_eq hi) ((hinv.idle_iff A).mp hctA)
  | waiting kA =>
    exfalso
    obtain ⟨posA, hposA, hkA, hUA⟩ := hinv.waiting_spec A kA hctA
    have hposAi : posA = i := fetchAdd_pos_unique hrun hbound hposA hi
    subst hposAi
    have hlt : FA (tr.take posA) < FA (tr.take j) := FA_take_lt_of_pos_lt tr hij hi
    cases hctB : c.ts B with
    | idle => simp [hasAcquired, hctB] at hB
    | waiting k => simp [hasAcquired, hctB] at hB
    | holding k =>
      obtain ⟨posB, hposB, hFB⟩ := hinv.holding_spec B k hctB
      have hposBj : posB = j := fetchAdd_pos_unique hrun hbound hposB hj
      subst hposBj
      omega
    | released =>
      obtain ⟨posB, hposB, hFB⟩ := hinv.released_spec B hctB
      have hposBj : posB = j := fetchAdd_pos_unique hrun hbound hposB hj
      subst hposBj
      omega

/-- A concrete two-thread contention round: thread 0 takes ticket 0 and the
lock immediately, thread 1 draws ticket 1 and spins, thread 0 unlocks,
thread 1 acquires. -/
def demoTrace : List Ev :=
  [Ev.fetchAdd 0, Ev.fetchAdd 1, Ev.unlock 0, Ev.acquire 1]

/-- The configuration the demo trace reaches. -/
def demoCfg : Config := (run init demoTrace).getD init

theorem ticket_spin_lock_fifo_witness :
    run init demoTrace = some demoCfg ∧ FA demoTrace ≤ 65536 ∧ (0 : Nat) < 1 ∧
    demoTrace[0]? = some (Ev.fetchAdd 0) ∧ demoTrace[1]? = some (Ev.fetchAdd 1) ∧
    hasAcquired demoCfg 1 = true ∧ hasAcquired demoCfg 0 = true :=
  ⟨rfl, by decide, by decide, rfl, rfl, rfl,
   ticket_spin_lock_fifo demoTrace demoCfg 0 1 0 1 rfl (by decide) (by decide)
     rfl rfl rfl⟩

end TicketProtocol
